import Mathlib

/-!
Verification development for the const_format string-editing and
format-string-parsing core.

Texts are modelled as lists of byte values (`List Nat`, each entry a byte
0-255); the proc-macro parser works on lists of characters (`List Char`).
Machine `usize` arithmetic is modelled as `Nat` with the explicit 64-bit
bound `usizeMax`; const-evaluation failures (index assertions, overflow)
are modelled as `Option`/`Except` error results.
-/

deriving instance DecidableEq for Except

/-! ## UTF-8 byte classification (model of the Rust `str` validity invariant) -/

/-- Whether a byte is a UTF-8 continuation byte (top two bits are 10),
i.e. in the range 0x80-0xBF. -/
def isCont (b : Nat) : Bool :=
  decide (0x80 ≤ b) && decide (b ≤ 0xBF)

/-- The standard UTF-8 validation automaton (the byte-level acceptor that
Rust's `str` validity is defined by): scan one byte at a time, tracking how
many continuation bytes are still pending and the allowed range of the next
byte (the per-leader first-continuation ranges encode the overlong and
surrogate restrictions).  A list is accepted when it ends with no pending
continuation bytes. -/
def utf8Run : List Nat → Nat → Nat → Nat → Bool
  | [], p, _, _ => decide (p = 0)
  | b :: rest, 0, _, _ =>
    if b ≤ 0x7F then utf8Run rest 0 0 0
    else if 0xC2 ≤ b ∧ b ≤ 0xDF then utf8Run rest 1 0x80 0xBF
    else if b = 0xE0 then utf8Run rest 2 0xA0 0xBF
    else if b = 0xED then utf8Run rest 2 0x80 0x9F
    else if 0xE1 ≤ b ∧ b ≤ 0xEF then utf8Run rest 2 0x80 0xBF
    else if b = 0xF0 then utf8Run rest 3 0x90 0xBF
    else if b = 0xF4 then utf8Run rest 3 0x80 0x8F
    else if 0xF1 ≤ b ∧ b ≤ 0xF3 then utf8Run rest 3 0x80 0xBF
    else false
  | b :: rest, p + 1, lo, hi =>
    if lo ≤ b ∧ b ≤ hi then utf8Run rest p 0x80 0xBF
    else false

/-- UTF-8 validity of a byte list: the invariant that Rust's `str` type
guarantees for every text handled by the library. -/
def utf8Valid (l : List Nat) : Bool := utf8Run l 0 0 0

/-! ## Byte-level substring search -/

/-- Modelled from the spec: the code's `bytes_find` helper is not among the
provided source files.  Per spec section 4.1, `find(haystack, needle, from)`
returns the lowest byte offset that is at least `from` at which `needle`
occurs as a contiguous subsequence of `haystack`, or none; the empty needle
never matches internally (callers special-case empty patterns). -/
def bytes_find (hay needle : List Nat) (i : Nat) : Option Nat :=
  if needle.isEmpty then none
  else (List.range (hay.length + 1)).find?
    (fun j => decide (i ≤ j) && needle.isPrefixOf (hay.drop j))

/-! ## Two-pass replace (src/const_format/src/__str_methods/str_replace.rs) -/

/-- The `ReplaceInput` pattern type: a single ASCII byte (the `AsciiByte`
construction requires the value to be at most 127, which is carried as a
hypothesis where needed) or a static string. -/
inductive ReplaceInput
  | asciiByte (b : Nat)
  | str (s : List Nat)
deriving DecidableEq

/-- The string-pattern scanning loop of `str_replace_length`, accumulating
the output size: each found match at `m` contributes the unmatched gap
`m - i` plus the replacement length, and the loop resumes after the match.
The loop advances `i` by at least one per iteration and stops once
`bytes_find` fails, so `inp.length + 1` units of fuel (as supplied by
`str_replace_length`) always suffice; the fuel-exhausted branch returns the
same value as the no-match branch. -/
def replaceLenLoop (inp s rw : List Nat) : Nat → Nat → Nat
  | 0, i => inp.length - i
  | fuel + 1, i =>
    match bytes_find inp s i with
    | some m => (m - i) + rw.length + replaceLenLoop inp s rw fuel (m + s.length)
    | none => inp.length - i

/-- Length pass of the two-pass replace, from `str_replace_length`:
for a byte pattern each input byte contributes either the replacement's
length (on match) or 1; for an empty string pattern the result is the input
length; otherwise the string scanning loop runs from offset 0. -/
def str_replace_length (inp : List Nat) (r : ReplaceInput) (replaced_with : List Nat) : Nat :=
  match r with
  | .asciiByte byte =>
    inp.foldl (fun out_len b => out_len + if b = byte then replaced_with.length else 1) 0
  | .str s =>
    if s.isEmpty then inp.length
    else replaceLenLoop inp s replaced_with (inp.length + 1) 0

/-- The string-pattern scanning loop of the write pass `str_replace`: for
each found match at `m`, the bytes of the unmatched gap `inp[i..m]` are
written, then the replacement; after the last match the tail `inp[i..]` is
written.  Sequential writes into the output buffer are modelled by list
concatenation.  Fuel as in `replaceLenLoop`. -/
def replaceWriteLoop (inp s rw : List Nat) : Nat → Nat → List Nat
  | 0, i => inp.drop i
  | fuel + 1, i =>
    match bytes_find inp s i with
    | some m =>
      (inp.drop i).take (m - i) ++ rw ++ replaceWriteLoop inp s rw fuel (m + s.length)
    | none => inp.drop i

/-- Write pass of the two-pass replace, from `str_replace`: for a byte
pattern each input byte is written either as the replacement bytes (on
match) or verbatim; an empty string pattern copies every input byte;
otherwise the string scanning loop runs from offset 0. -/
def str_replace (inp : List Nat) (r : ReplaceInput) (replaced_with : List Nat) : List Nat :=
  match r with
  | .asciiByte byte =>
    inp.foldl (fun out b => if b = byte then out ++ replaced_with else out ++ [b]) []
  | .str s =>
    if s.isEmpty then inp.foldl (fun out b => out ++ [b]) []
    else replaceWriteLoop inp s replaced_with (inp.length + 1) 0

/-- The sequence of match positions visited by the replace loops: the
leftmost match at or after `i`, then the leftmost match at or after the end
of that match, and so on.  Fuel as in `replaceLenLoop`. -/
def matchPositionsLoop (inp s : List Nat) : Nat → Nat → List Nat
  | 0, _ => []
  | fuel + 1, i =>
    match bytes_find inp s i with
    | some m => m :: matchPositionsLoop inp s fuel (m + s.length)
    | none => []

/-- The non-overlapping leftmost match positions of pattern `s` in `inp`. -/
def match_positions (inp s : List Nat) : List Nat :=
  matchPositionsLoop inp s (inp.length + 1) 0

/-- The byte sequence obtained from `inp` (from offset `i` on) by
substituting `rw` for the length-`s.length` occurrence at each position in
`ps` and copying all other bytes verbatim. -/
def substOccurrences (inp s rw : List Nat) (i : Nat) : List Nat → List Nat
  | [] => inp.drop i
  | p :: rest =>
    (inp.drop i).take (p - i) ++ rw ++ substOccurrences inp s rw (p + s.length) rest

/-! ## Repeat (str_repeat in src/const_format/src/macros/str_methods.rs) -/

/-- Largest value of the platform size type, modelled for the 64-bit
platforms the crate is built on. -/
def usizeMax : Nat := 2 ^ 64 - 1

/-- The `str_repeat` macro: it computes `OUT_LEN = STR_LEN * TIMES` in a
const item, where overflowing multiplication is a compile-time error
(modelled as `none`), and otherwise materialises `times` concatenated
copies of the input string. -/
def str_repeat (s : List Nat) (times : Nat) : Option (List Nat) :=
  if s.length * times ≤ usizeMax then some (List.replicate times s).flatten
  else none

/-! ## Index resolution, indexing, get and splice

The `StrIndexArgs`/`StrSpliceArgs`/`IndexValidity`/`DecomposedString`
support code used by the `str_index`, `str_get` and `str_splice` macros is
not among the provided source files (only the macros that consume it are),
so the resolution of index specs is modelled from the spec (sections 3,
4.1, 4.2, 6 and 7). -/

/-- Modelled from the spec: the IndexSpec tagged variant, one of
single-offset, half-open range, open-start range, open-end range, closed
range, closed-end range, or full span. -/
inductive IndexSpec
  | single (i : Nat)
  | range (s e : Nat)
  | rangeTo (e : Nat)
  | rangeFrom (s : Nat)
  | rangeInclusive (s e : Nat)
  | rangeToInclusive (e : Nat)
  | rangeFull
deriving DecidableEq

/-- Modelled from the spec (section 4.1): `is_char_boundary(text, offset)`
is true iff the offset is 0, is `text.len()`, or the byte at the offset is
not a UTF-8 continuation byte. -/
def is_char_boundary (text : List Nat) (offset : Nat) : Bool :=
  decide (offset = 0) || decide (offset = text.length) || !(isCont (text.getD offset 0))

/-- Modelled from the spec: the smallest char boundary of `text` that is at
least `j` (used to resolve a single-offset spec, which covers exactly the
one char starting there); when `j` exceeds the text length the value `j`
itself is returned, which then fails the range check. -/
def nextBoundary (text : List Nat) (j : Nat) : Nat :=
  (((List.range (text.length + 1)).filter
    (fun k => decide (j ≤ k) && is_char_boundary text k)).head?).getD j

/-- Modelled from the spec (section 3): normalize an IndexSpec to a
concrete `(start, end)` byte-offset pair over the subject text.  A
single-offset spec covers exactly the char starting at that offset. -/
def resolveIndexSpec (text : List Nat) (spec : IndexSpec) : Nat × Nat :=
  match spec with
  | .single i => (i, nextBoundary text (i + 1))
  | .range s e => (s, e)
  | .rangeTo e => (0, e)
  | .rangeFrom s => (s, text.length)
  | .rangeInclusive s e => (s, e + 1)
  | .rangeToInclusive e => (0, e + 1)
  | .rangeFull => (0, text.length)

/-- Modelled from the spec (sections 3 and 7): a resolved span is valid iff
`start <= end <= text.len()` and both ends land on char boundaries. -/
def index_valid (text : List Nat) (spec : IndexSpec) : Bool :=
  decide ((resolveIndexSpec text spec).1 ≤ (resolveIndexSpec text spec).2) &&
  decide ((resolveIndexSpec text spec).2 ≤ text.length) &&
  is_char_boundary text (resolveIndexSpec text spec).1 &&
  is_char_boundary text (resolveIndexSpec text spec).2

/-- Modelled from the spec (section 3): a subject text split into the bytes
before the selected span, the selected span, and the bytes after it
(the spec's prefix/middle/suffix regions). -/
structure DecomposedText where
  before : List Nat
  middle : List Nat
  after : List Nat
deriving DecidableEq

/-- Build the `DecomposedText` of `text` for the resolved span `[s, e)`. -/
def decompose (text : List Nat) (s e : Nat) : DecomposedText :=
  ⟨text.take s, (text.drop s).take (e - s), text.drop e⟩

/-- The single fatal failure of index resolution: resolved span out of
bounds or not on char boundaries (a compile-time error in the macros). -/
inductive IndexError
  | invalidIndex
deriving DecidableEq

/-- Modelled from the spec (section 4.2): `index(text, spec)` resolves the
spec — fatally failing when it is invalid — and returns the middle region
of the resulting decomposition. -/
def str_index (text : List Nat) (spec : IndexSpec) : Except IndexError (List Nat) :=
  if index_valid text spec then
    .ok (decompose text (resolveIndexSpec text spec).1 (resolveIndexSpec text spec).2).middle
  else .error .invalidIndex

/-- Modelled from the spec (section 6): `get(text, spec)` is the non-fatal
variant of `index`, returning `none` instead of failing when the resolved
span is invalid (as the `str_get` macro does via
`index_validity.is_valid()`). -/
def str_get (text : List Nat) (spec : IndexSpec) : Option (List Nat) :=
  if index_valid text spec then
    some (decompose text (resolveIndexSpec text spec).1 (resolveIndexSpec text spec).2).middle
  else none

/-- The `SplicedStr` result of a splice: the whole new text and the excised
middle region. -/
structure SplicedStr where
  output : List Nat
  removed : List Nat
deriving DecidableEq

/-- Modelled from the spec (section 4.2): `splice(text, spec, replacement)`
resolves the spec — fatally failing when it is invalid — builds the
decomposition, and returns `{output := before ++ replacement ++ after,
removed := middle}`. -/
def str_splice (text : List Nat) (spec : IndexSpec) (insert : List Nat) :
    Except IndexError SplicedStr :=
  if index_valid text spec then
    .ok ⟨(decompose text (resolveIndexSpec text spec).1 (resolveIndexSpec text spec).2).before
          ++ insert ++
          (decompose text (resolveIndexSpec text spec).1 (resolveIndexSpec text spec).2).after,
         (decompose text (resolveIndexSpec text spec).1 (resolveIndexSpec text spec).2).middle⟩
  else .error .invalidIndex

/-! ## Format-string parser
(src/const_format_proc_macros/src/format_str_parsing.rs) -/

/-- Kinds of fatal parse errors, from `ParseErrorKind`. -/
inductive ParseErrorKind
  | unclosedArg
  | invalidClosedArg
  | notANumber (what : List Char)
  | notAnIdent (what : List Char)
  | unknownFormatting (what : List Char)
deriving DecidableEq

/-- A fatal parse error: a byte offset into the original template string
and a kind, from `ParseError`. -/
structure ParseError where
  pos : Nat
  kind : ParseErrorKind
deriving DecidableEq

/-- The formatting spec of a placeholder, from `Formatting`. -/
inductive Formatting
  | debug
  | display
deriving DecidableEq

/-- The selector of a placeholder, from `WhichArg`: a named identifier or a
positional index (`none` meaning the next implicit index). -/
inductive WhichArg
  | ident (s : List Char)
  | positional (n : Option Nat)
deriving DecidableEq

/-- A parsed placeholder, from `FmtArg`. -/
structure FmtArg where
  which_arg : WhichArg
  formatting : Formatting
deriving DecidableEq

/-- A component of a parsed format string, from `FmtStrComponent`:
a literal run or a placeholder. -/
inductive FmtStrComponent
  | str (s : List Char)
  | arg (a : FmtArg)
deriving DecidableEq

/-- A parsed format string, from `FormatStr`. -/
structure FormatStr where
  list : List FmtStrComponent
deriving DecidableEq

/-- Index of the first occurrence of character `c` in `s`, or none. -/
def charFindIdx (s : List Char) (c : Char) : Option Nat :=
  match s with
  | [] => none
  | a :: rest => if a = c then some 0 else (charFindIdx rest c).map (· + 1)

/-- The `find_from` helper of `StrExt`: the first occurrence of `c` in `s`
at or after position `i` (searching `s[i..]` and re-offsetting). -/
def find_from (s : List Char) (c : Char) (i : Nat) : Option Nat :=
  (charFindIdx (s.drop i) c).map (· + i)

/-- The `push_arg_str` helper of `VecExt`: push a literal component,
dropping it when empty. -/
def push_arg_str (components : List FmtStrComponent) (s : List Char) : List FmtStrComponent :=
  if s.isEmpty then components else components ++ [.str s]

/-- Whether a character is an ASCII digit, as `u8::is_ascii_digit` on the
leading byte of the character. -/
def isAsciiDigit (c : Char) : Bool :=
  decide (48 ≤ c.toNat) && decide (c.toNat ≤ 57)

/-- Decimal value of a digit string. -/
def digitsToNat (s : List Char) : Nat :=
  s.foldl (fun a c => a * 10 + (c.toNat - 48)) 0

/-- Check and evaluate the digit part of a `usize` literal: at least one
ASCII digit, whose decimal value must not exceed `usize::MAX`. -/
def parseUsizeDigits (digits : List Char) : Option Nat :=
  if digits.isEmpty then none
  else if digits.all isAsciiDigit then
    if digitsToNat digits ≤ usizeMax then some (digitsToNat digits) else none
  else none

/-- Rust's `str::parse::<usize>` semantics on a 64-bit platform: an
optional leading plus sign followed by at least one ASCII digit, whose
decimal value must not exceed `usize::MAX`; anything else fails. -/
def parseUsize (s : List Char) : Option Nat :=
  match s with
  | [] => none
  | c :: rest => parseUsizeDigits (if c = '+' then rest else s)

/-- Whether a character counts as alphabetic for selector identifiers
(`char::is_alphabetic`; the claims only exercise ASCII selectors, so the
ASCII classification is used). -/
def isAlphaChar (c : Char) : Bool :=
  c.isAlpha

/-- Whether a character counts as alphanumeric for selector identifiers
(`char::is_alphanumeric`, ASCII classification as above). -/
def isAlphanumChar (c : Char) : Bool :=
  c.isAlphanum

/-- The `parse_ident` helper: a valid selector identifier starts with an
alphabetic character, or an underscore provided the identifier is longer
than one character, and continues with alphanumerics or underscores;
anything else is a fatal not-an-identifier error.  The source panics on an
empty identifier and is never called with one; the empty case here returns
the same error kind. -/
def parse_ident (ident_str : List Char) (starts_at : Nat) : Except ParseError WhichArg :=
  match ident_str with
  | [] => .error ⟨starts_at, .notAnIdent ident_str⟩
  | first :: rest =>
    if (!isAlphaChar first && (first ≠ '_' || ident_str.length = 1))
        || rest.any (fun c => !isAlphanumChar c && c ≠ '_') then
      .error ⟨starts_at, .notAnIdent ident_str⟩
    else .ok (.ident ident_str)

/-- The `parse_which_arg` function: an empty selector is the next implicit
positional argument; a selector whose first character is an ASCII digit is
parsed as an explicit `usize` position (a fatal not-a-number error when
that fails); anything else is parsed as an identifier. -/
def parse_which_arg (input : List Char) (starts_at : Nat) : Except ParseError WhichArg :=
  match input with
  | [] => .ok (.positional none)
  | c :: _ =>
    if isAsciiDigit c then
      match parseUsize input with
      | some number => .ok (.positional (some number))
      | none => .error ⟨starts_at, .notANumber input⟩
    else parse_ident input starts_at

/-- The `parse_formatting` function: the empty spec is Display, the spec
consisting of a single question mark is Debug, and anything else is a fatal
unknown-formatting error carrying the spec text and its offset. -/
def parse_formatting (input : List Char) (starts_at : Nat) : Except ParseError Formatting :=
  if input = [] then .ok .display
  else if input = ['?'] then .ok .debug
  else .error ⟨starts_at, .unknownFormatting input⟩

/-- The `parse_fmt_arg` function: split the text between braces at the
first colon; the left part is the selector and the right part (empty when
there is no colon) is the formatting spec, whose reported offset is just
past the colon. -/
def parse_fmt_arg (input : List Char) (starts_at : Nat) : Except ParseError FmtArg :=
  match parse_which_arg (input.take ((charFindIdx input ':').getD input.length)) starts_at with
  | .error e => .error e
  | .ok w =>
    match parse_formatting
        (match charFindIdx input ':' with
          | none => []
          | some x => input.drop (x + 1))
        (match charFindIdx input ':' with
          | none => input.length
          | some x => starts_at + x + 1) with
    | .error e => .error e
    | .ok f => .ok ⟨w, f⟩

/-- The scanning loop of `parse_mid_str`, unescaping doubled closing
braces in the literal text between placeholders: each closing brace must
be followed by another one (which is dropped), otherwise the scan fails
with an invalid-closing-brace error at that brace's offset.  The loop
advances by at least two positions per iteration, so `str.length + 1`
units of fuel (as supplied by `parse_mid_str`) always suffice; the
fuel-exhausted branch is unreachable. -/
def parse_mid_str_loop (str : List Char) (starts_at : Nat) :
    Nat → Nat → List Char → Except ParseError (List Char)
  | 0, starts_pos, _ => .error ⟨starts_at + starts_pos, .invalidClosedArg⟩
  | fuel + 1, starts_pos, buffer =>
    match find_from str '}' starts_pos with
    | some close_pos =>
      if str[close_pos + 1]? = some '}' then
        parse_mid_str_loop str starts_at fuel (close_pos + 2)
          (buffer ++ (str.drop starts_pos).take (close_pos + 1 - starts_pos))
      else .error ⟨starts_at + close_pos, .invalidClosedArg⟩
    | none => .ok (buffer ++ str.drop starts_pos)

/-- The `parse_mid_str` function: unescape the literal text between
placeholders (`starts_at` is its offset in the original template). -/
def parse_mid_str (str : List Char) (starts_at : Nat) : Except ParseError (List Char) :=
  parse_mid_str_loop str starts_at (str.length + 1) 0 []

/-- The main loop of `parse_format_str`: find the next opening brace; the
text before it is unescaped and pushed as a literal (dropped when empty).
With no opening brace left, parsing completes.  A doubled opening brace
pushes a literal single brace and skips both.  Otherwise the text up to
the matching closing brace is parsed as a placeholder; a missing closing
brace is a fatal unclosed-argument error at the opening brace's offset.
The cursor advances by at least two positions per iteration, so
`input.length + 1` units of fuel (as supplied by `parse_format_str`)
always suffice; the fuel-exhausted branch is unreachable. -/
def parse_format_str_loop (input : List Char) :
    Nat → Nat → List FmtStrComponent → Except ParseError FormatStr
  | 0, arg_start, _ => .error ⟨arg_start, .unclosedArg⟩
  | fuel + 1, arg_start, components =>
    match parse_mid_str
        ((input.drop arg_start).take
          (((find_from input '{' arg_start).getD input.length) - arg_start))
        arg_start with
    | .error e => .error e
    | .ok mid =>
      match find_from input '{' arg_start with
      | some open_pos =>
        if input[open_pos + 1]? = some '{' then
          parse_format_str_loop input fuel (open_pos + 2)
            (push_arg_str (push_arg_str components mid) ['{'])
        else
          match find_from input '}' (open_pos + 1) with
          | some close_pos =>
            match parse_fmt_arg
                ((input.drop (open_pos + 1)).take (close_pos - (open_pos + 1)))
                (open_pos + 1) with
            | .error e => .error e
            | .ok arg =>
              parse_format_str_loop input fuel (close_pos + 1)
                (push_arg_str components mid ++ [.arg arg])
          | none => .error ⟨open_pos, .unclosedArg⟩
      | none => .ok ⟨push_arg_str components mid⟩

/-- The `parse_format_str` function: scan the whole template from offset 0
with an empty component list. -/
def parse_format_str (input : List Char) : Except ParseError FormatStr :=
  parse_format_str_loop input (input.length + 1) 0 []

/-! ## Helper lemmas about `bytes_find` -/

theorem find?_range_least {n m : Nat} {p : Nat → Bool}
    (h : (List.range n).find? p = some m) :
    p m = true ∧ m < n ∧ ∀ j, j < m → p j = false := by
  induction n with
  | zero => simp [List.range_zero] at h
  | succ k ih =>
    rw [List.range_succ, List.find?_append] at h
    cases hk : (List.range k).find? p with
    | some a =>
      rw [hk] at h
      simp only [Option.or_some, Option.some.injEq] at h
      subst h
      obtain ⟨hp, hlt, hleast⟩ := ih hk
      exact ⟨hp, Nat.lt_succ_of_lt hlt, hleast⟩
    | none =>
      rw [hk] at h
      simp only [Option.none_or] at h
      rw [List.find?_cons] at h
      cases hpk : p k with
      | true =>
        rw [hpk] at h
        simp only [List.find?_nil, Option.some.injEq] at h
        subst h
        refine ⟨hpk, Nat.lt_succ_self _, fun j hj => ?_⟩
        have := List.find?_eq_none.mp hk j (List.mem_range.mpr hj)
        exact Bool.not_eq_true _ ▸ (by simpa using this)
      | false =>
        rw [hpk] at h
        simp at h

theorem bytes_find_some {hay s : List Nat} {i m : Nat}
    (h : bytes_find hay s i = some m) :
    s ≠ [] ∧ i ≤ m ∧ m + s.length ≤ hay.length ∧
    s.isPrefixOf (hay.drop m) = true ∧
    (∀ j, i ≤ j → j < m → s.isPrefixOf (hay.drop j) = false) := by
  unfold bytes_find at h
  split at h
  · exact absurd h (by simp)
  · rename_i hne
    obtain ⟨hp, hlt, hleast⟩ := find?_range_least h
    simp only [Bool.and_eq_true, decide_eq_true_eq] at hp
    obtain ⟨him, hpre⟩ := hp
    have hsne : s ≠ [] := by
      intro hs; rw [hs] at hne; simp at hne
    have hlen : s.length ≤ (hay.drop m).length :=
      (List.isPrefixOf_iff_prefix.mp hpre).length_le
    rw [List.length_drop] at hlen
    refine ⟨hsne, him, by omega, hpre, fun j hij hjm => ?_⟩
    have := hleast j hjm
    simp only [Bool.and_eq_false_iff, decide_eq_false_iff_not] at this
    rcases this with h1 | h2
    · exact absurd hij h1
    · exact h2

theorem bytes_find_none {hay s : List Nat} {i j : Nat}
    (h : bytes_find hay s i = none) (hs : s ≠ []) (hij : i ≤ j) :
    s.isPrefixOf (hay.drop j) = false := by
  unfold bytes_find at h
  split at h
  · rename_i he; exact absurd (by simpa using he) hs
  · by_contra hcon
    have hpre : s.isPrefixOf (hay.drop j) = true := by
      cases hb : s.isPrefixOf (hay.drop j) with
      | true => rfl
      | false => exact absurd hb hcon
    have hlen : s.length ≤ (hay.drop j).length :=
      (List.isPrefixOf_iff_prefix.mp hpre).length_le
    rw [List.length_drop] at hlen
    have hslen : 1 ≤ s.length := by
      cases s with
      | nil => exact absurd rfl hs
      | cons a t => simp
    have hjr : j ∈ List.range (hay.length + 1) := List.mem_range.mpr (by omega)
    have := List.find?_eq_none.mp h j hjr
    simp only [Bool.and_eq_true, decide_eq_true_eq, not_and] at this
    exact absurd hpre (by simpa using this hij)

/-! ## Lock-step lemmas for the two replace passes -/

theorem replaceWriteLoop_length (inp s rw : List Nat) :
    ∀ fuel i, (replaceWriteLoop inp s rw fuel i).length = replaceLenLoop inp s rw fuel i := by
  intro fuel
  induction fuel with
  | zero => intro i; simp [replaceWriteLoop, replaceLenLoop]
  | succ k ih =>
    intro i
    rw [replaceWriteLoop, replaceLenLoop]
    cases hb : bytes_find inp s i with
    | some m =>
      obtain ⟨_, him, hm, _, _⟩ := bytes_find_some hb
      simp only [List.length_append, List.length_take, List.length_drop, ih]
      omega
    | none => simp

theorem foldl_write_length (byte : Nat) (rw : List Nat) :
    ∀ (l : List Nat) (acc : List Nat),
      (l.foldl (fun out b => if b = byte then out ++ rw else out ++ [b]) acc).length =
      l.foldl (fun out_len b => out_len + if b = byte then rw.length else 1) acc.length := by
  intro l
  induction l with
  | nil => intro acc; rfl
  | cons a t ih =>
    intro acc
    simp only [List.foldl_cons]
    by_cases ha : a = byte
    · simp [ha, ih]
    · simp [ha, ih]

theorem foldl_copy_eq (l : List Nat) :
    ∀ acc : List Nat, l.foldl (fun out b => out ++ [b]) acc = acc ++ l := by
  induction l with
  | nil => intro acc; simp
  | cons a t ih => intro acc; simp [List.foldl_cons, ih]

/-- Claim C1: for every input text, pattern (ASCII byte or string) and replacement,
the write pass emits exactly as many bytes as the length pass computes:
modelling the sequential buffer writes of `str_replace` as an emitted byte
list, that list's length equals `str_replace_length`, so with a buffer of
exactly that length the final write cursor equals the buffer length, every
touched index is below it, and no position is left unwritten. -/
theorem str_replace_lockstep (inp rw : List Nat) (r : ReplaceInput) :
    (str_replace inp r rw).length = str_replace_length inp r rw := by
  cases r with
  | asciiByte byte =>
    simpa using foldl_write_length byte rw inp []
  | str s =>
    by_cases hs : s.isEmpty
    · simp [str_replace, str_replace_length, hs, foldl_copy_eq]
    · simp [str_replace, str_replace_length, hs, replaceWriteLoop_length]

/-- Claim C8: replacing with an empty string pattern is the identity: the length pass
returns the input's length and the write pass returns the input unchanged,
byte for byte, for every text and every replacement. -/
theorem str_replace_empty_id (inp rw : List Nat) :
    str_replace_length inp (.str []) rw = inp.length ∧
    str_replace inp (.str []) rw = inp := by
  constructor
  · simp [str_replace_length]
  · simpa [str_replace] using foldl_copy_eq inp []

/-- Claim C7: whenever the output length `text.len() * times` overflows the platform
size type, `str_repeat` fails (a compile-time error, modelled as `none`)
rather than wrapping and producing a truncated output. -/
theorem str_repeat_overflow (s : List Nat) (n : Nat) (h : usizeMax < s.length * n) :
    str_repeat s n = none := by
  simp only [str_repeat, ite_eq_right_iff]
  intro hle
  omega

/-- Witness for C7: repeating a 1-byte string 2^64 times overflows and is
rejected. -/
theorem str_repeat_overflow_witness :
    usizeMax < ([0] : List Nat).length * 2 ^ 64 ∧ str_repeat [0] (2 ^ 64) = none :=
  ⟨by decide, str_repeat_overflow [0] (2 ^ 64) (by decide)⟩

/-! ## Characterization of the match positions -/

theorem matchPositionsLoop_ge (inp s : List Nat) :
    ∀ fuel i p, p ∈ matchPositionsLoop inp s fuel i → i ≤ p := by
  intro fuel
  induction fuel with
  | zero => intro i p hp; simp [matchPositionsLoop] at hp
  | succ k ih =>
    intro i p hp
    cases hb : bytes_find inp s i with
    | some m =>
      obtain ⟨_, him, hm, _, _⟩ := bytes_find_some hb
      rw [show matchPositionsLoop inp s (k + 1) i
            = m :: matchPositionsLoop inp s k (m + s.length) by
          simp [matchPositionsLoop, hb]] at hp
      rcases List.mem_cons.mp hp with h | h
      · omega
      · have := ih (m + s.length) p h
        omega
    | none =>
      rw [show matchPositionsLoop inp s (k + 1) i = [] by
        simp [matchPositionsLoop, hb]] at hp
      simp at hp

theorem matchPositionsLoop_occ (inp s : List Nat) :
    ∀ fuel i p, p ∈ matchPositionsLoop inp s fuel i →
      s.isPrefixOf (inp.drop p) = true := by
  intro fuel
  induction fuel with
  | zero => intro i p hp; simp [matchPositionsLoop] at hp
  | succ k ih =>
    intro i p hp
    cases hb : bytes_find inp s i with
    | some m =>
      obtain ⟨_, _, _, hpre, _⟩ := bytes_find_some hb
      rw [show matchPositionsLoop inp s (k + 1) i
            = m :: matchPositionsLoop inp s k (m + s.length) by
          simp [matchPositionsLoop, hb]] at hp
      rcases List.mem_cons.mp hp with h | h
      · exact h ▸ hpre
      · exact ih (m + s.length) p h
    | none =>
      rw [show matchPositionsLoop inp s (k + 1) i = [] by
        simp [matchPositionsLoop, hb]] at hp
      simp at hp

theorem matchPositionsLoop_pairwise (inp s : List Nat) :
    ∀ fuel i, (matchPositionsLoop inp s fuel i).Pairwise
      (fun p q => p + s.length ≤ q) := by
  intro fuel
  induction fuel with
  | zero => intro i; simp [matchPositionsLoop]
  | succ k ih =>
    intro i
    cases hb : bytes_find inp s i with
    | some m =>
      rw [show matchPositionsLoop inp s (k + 1) i
            = m :: matchPositionsLoop inp s k (m + s.length) by
          simp [matchPositionsLoop, hb]]
      exact List.pairwise_cons.mpr
        ⟨fun q hq => matchPositionsLoop_ge inp s k (m + s.length) q hq,
         ih (m + s.length)⟩
    | none =>
      rw [show matchPositionsLoop inp s (k + 1) i = [] by
        simp [matchPositionsLoop, hb]]
      simp

theorem replaceLenLoop_arith (inp s rw : List Nat) :
    ∀ fuel i,
      (matchPositionsLoop inp s fuel i).length * s.length ≤ inp.length - i ∧
      replaceLenLoop inp s rw fuel i =
        inp.length - i - (matchPositionsLoop inp s fuel i).length * s.length
          + (matchPositionsLoop inp s fuel i).length * rw.length := by
  intro fuel
  induction fuel with
  | zero => intro i; simp [matchPositionsLoop, replaceLenLoop]
  | succ k ih =>
    intro i
    cases hb : bytes_find inp s i with
    | some m =>
      obtain ⟨_, him, hm, _, _⟩ := bytes_find_some hb
      obtain ⟨ih1, ih2⟩ := ih (m + s.length)
      simp only [matchPositionsLoop, replaceLenLoop, hb, List.length_cons, ih2,
        Nat.add_mul, Nat.one_mul]
      generalize hA : (matchPositionsLoop inp s k (m + s.length)).length * s.length = A at ih1 ⊢
      generalize hB : (matchPositionsLoop inp s k (m + s.length)).length * rw.length = B
      omega
    | none =>
      simp [matchPositionsLoop, replaceLenLoop, hb]

theorem replaceWriteLoop_subst (inp s rw : List Nat) :
    ∀ fuel i, replaceWriteLoop inp s rw fuel i =
      substOccurrences inp s rw i (matchPositionsLoop inp s fuel i) := by
  intro fuel
  induction fuel with
  | zero => intro i; simp [replaceWriteLoop, matchPositionsLoop, substOccurrences]
  | succ k ih =>
    intro i
    cases hb : bytes_find inp s i with
    | some m =>
      simp only [replaceWriteLoop, matchPositionsLoop, hb, substOccurrences, ih]
    | none =>
      simp [replaceWriteLoop, matchPositionsLoop, hb, substOccurrences]

theorem matchPositionsLoop_complete (inp s : List Nat) (hs : s ≠ []) :
    ∀ fuel i j, inp.length + 1 - i ≤ fuel → i ≤ j →
      s.isPrefixOf (inp.drop j) = true →
      ∃ p ∈ matchPositionsLoop inp s fuel i, p ≤ j ∧ j < p + s.length := by
  intro fuel
  induction fuel with
  | zero =>
    intro i j hfuel hij hpre
    exfalso
    have hlen : s.length ≤ inp.length - j := by
      have := (List.isPrefixOf_iff_prefix.mp hpre).length_le
      simpa [List.length_drop] using this
    have hs1 : 1 ≤ s.length := by
      cases s with
      | nil => exact absurd rfl hs
      | cons a t => simp
    omega
  | succ k ih =>
    intro i j hfuel hij hpre
    cases hb : bytes_find inp s i with
    | some m =>
      obtain ⟨_, him, hm, _, hleast⟩ := bytes_find_some hb
      have hcons : matchPositionsLoop inp s (k + 1) i
          = m :: matchPositionsLoop inp s k (m + s.length) := by
        simp [matchPositionsLoop, hb]
      by_cases hjm : j < m
      · have := hleast j hij hjm
        rw [hpre] at this
        simp at this
      · push_neg at hjm
        by_cases hover : j < m + s.length
        · exact ⟨m, by rw [hcons]; exact List.mem_cons_self _ _, hjm, hover⟩
        · push_neg at hover
          have hs1 : 1 ≤ s.length := by
            cases s with
            | nil => exact absurd rfl hs
            | cons a t => simp
          obtain ⟨p, hp, h1, h2⟩ := ih (m + s.length) j (by omega) hover hpre
          exact ⟨p, by rw [hcons]; exact List.mem_cons_of_mem _ hp, h1, h2⟩
    | none =>
      have := bytes_find_none hb hs hij
      rw [hpre] at this
      simp at this

/-! ## Byte-pattern characterization lemmas -/

theorem foldl_write_flatMap (byte : Nat) (rw : List Nat) :
    ∀ (l acc : List Nat),
      l.foldl (fun out b => if b = byte then out ++ rw else out ++ [b]) acc =
      acc ++ l.flatMap (fun c => if c = byte then rw else [c]) := by
  intro l
  induction l with
  | nil => intro acc; simp
  | cons a t ih =>
    intro acc
    simp only [List.foldl_cons, List.flatMap_cons]
    by_cases ha : a = byte
    · simp [ha, ih, List.append_assoc]
    · simp [ha, ih, List.append_assoc]

theorem foldl_len_count (byte : Nat) (rw : List Nat) :
    ∀ (l : List Nat) (acc : Nat),
      l.foldl (fun n c => n + if c = byte then rw.length else 1) acc =
      acc + (l.length - l.count byte) + l.count byte * rw.length := by
  intro l
  induction l with
  | nil => intro acc; simp
  | cons a t ih =>
    intro acc
    have hc := List.count_le_length byte t
    by_cases ha : a = byte
    · simp only [List.foldl_cons, List.length_cons, List.count_cons, ha, ih,
        beq_self_eq_true, if_true, Nat.add_mul, Nat.one_mul]
      generalize hB : t.count byte * rw.length = B
      omega
    · have hab : (a == byte) = false := by simpa using ha
      simp only [List.foldl_cons, List.length_cons, List.count_cons, hab, ih,
        Bool.false_eq_true, if_false, Nat.add_zero]
      rw [if_neg ha]
      generalize hB : t.count byte * rw.length = B
      omega

/-- Claim C2: for every text, replacement, and pattern — an ASCII byte or a
non-empty string — occurring exactly k times as non-overlapping leftmost
matches (`match_positions` lists exactly those positions: each is a genuine
occurrence, they are pairwise non-overlapping, and every occurrence of the
pattern overlaps one of them), `str_replace_length` equals
`text.length - k * pattern.length + k * replacement.length`, and
`str_replace` produces the byte sequence obtained by substituting the
replacement for each of those occurrences and copying all other bytes
verbatim. -/
theorem str_replace_correct (inp rw s : List Nat) (b : Nat) (hs : s ≠ []) :
    (str_replace_length inp (.asciiByte b) rw =
        inp.length - inp.count b * 1 + inp.count b * rw.length ∧
      str_replace inp (.asciiByte b) rw =
        inp.flatMap (fun c => if c = b then rw else [c])) ∧
    (str_replace_length inp (.str s) rw =
        inp.length - (match_positions inp s).length * s.length
          + (match_positions inp s).length * rw.length ∧
      str_replace inp (.str s) rw =
        substOccurrences inp s rw 0 (match_positions inp s) ∧
      (∀ p ∈ match_positions inp s, s.isPrefixOf (inp.drop p) = true) ∧
      (match_positions inp s).Pairwise (fun p q => p + s.length ≤ q) ∧
      (∀ j, s.isPrefixOf (inp.drop j) = true →
        ∃ p ∈ match_positions inp s, p ≤ j ∧ j < p + s.length)) := by
  have hsne : ¬s.isEmpty := by
    cases s with
    | nil => exact absurd rfl hs
    | cons a t => simp
  refine ⟨⟨?_, ?_⟩, ?_, ?_, ?_, ?_, ?_⟩
  · have := foldl_len_count b rw inp 0
    simp only [str_replace_length, this, Nat.zero_add, Nat.mul_one]
  · simpa [str_replace] using foldl_write_flatMap b rw inp []
  · have := (replaceLenLoop_arith inp s rw (inp.length + 1) 0).2
    simp only [str_replace_length, if_neg hsne, match_positions, this, Nat.sub_zero]
  · have := replaceWriteLoop_subst inp s rw (inp.length + 1) 0
    simp only [str_replace, if_neg hsne, match_positions, this]
  · exact fun p hp => matchPositionsLoop_occ inp s (inp.length + 1) 0 p hp
  · exact matchPositionsLoop_pairwise inp s (inp.length + 1) 0
  · exact fun j hj =>
      matchPositionsLoop_complete inp s hs (inp.length + 1) 0 j (by omega) (Nat.zero_le j) hj

/-- Witness for C2 at a concrete input: replacing byte 3 and string
pattern byte-sequence 5 in the two-byte text 3, 5 with the two-byte
replacement 7, 8. -/
theorem str_replace_correct_witness :
    ([5] : List Nat) ≠ [] ∧
    ((str_replace_length [3, 5] (.asciiByte 3) [7, 8] =
        [3, 5].length - [3, 5].count 3 * 1 + [3, 5].count 3 * [7, 8].length ∧
      str_replace [3, 5] (.asciiByte 3) [7, 8] =
        [3, 5].flatMap (fun c => if c = 3 then [7, 8] else [c])) ∧
     (str_replace_length [3, 5] (.str [5]) [7, 8] =
        [3, 5].length - (match_positions [3, 5] [5]).length * [5].length
          + (match_positions [3, 5] [5]).length * [7, 8].length ∧
      str_replace [3, 5] (.str [5]) [7, 8] =
        substOccurrences [3, 5] [5] [7, 8] 0 (match_positions [3, 5] [5]) ∧
      (∀ p ∈ match_positions [3, 5] [5], [5].isPrefixOf ([3, 5].drop p) = true) ∧
      (match_positions [3, 5] [5]).Pairwise (fun p q => p + [5].length ≤ q) ∧
      (∀ j, [5].isPrefixOf ([3, 5].drop j) = true →
        ∃ p ∈ match_positions [3, 5] [5], p ≤ j ∧ j < p + [5].length))) :=
  ⟨by decide, str_replace_correct [3, 5] [7, 8] [5] 3 (by decide)⟩

/-! ## UTF-8 preservation of byte-pattern replace -/

theorem utf8Run_state0 (l : List Nat) (lo hi lo' hi' : Nat) :
    utf8Run l 0 lo hi = utf8Run l 0 lo' hi' := by
  cases l <;> rfl

theorem utf8Run_append (ys : List Nat) (hy : utf8Run ys 0 0 0 = true) :
    ∀ xs p lo hi, utf8Run xs p lo hi = true → utf8Run (xs ++ ys) p lo hi = true := by
  intro xs
  induction xs with
  | nil =>
    intro p lo hi hx
    simp only [utf8Run, decide_eq_true_eq] at hx
    subst hx
    rw [List.nil_append, utf8Run_state0 ys lo hi 0 0]
    exact hy
  | cons b xs ih =>
    intro p lo hi hx
    rw [List.cons_append]
    cases p with
    | zero =>
      simp only [utf8Run] at hx ⊢
      by_cases h1 : b ≤ 0x7F
      · rw [if_pos h1] at hx ⊢; exact ih _ _ _ hx
      · rw [if_neg h1] at hx ⊢
        by_cases h2 : 0xC2 ≤ b ∧ b ≤ 0xDF
        · rw [if_pos h2] at hx ⊢; exact ih _ _ _ hx
        · rw [if_neg h2] at hx ⊢
          by_cases h3 : b = 0xE0
          · rw [if_pos h3] at hx ⊢; exact ih _ _ _ hx
          · rw [if_neg h3] at hx ⊢
            by_cases h4 : b = 0xED
            · rw [if_pos h4] at hx ⊢; exact ih _ _ _ hx
            · rw [if_neg h4] at hx ⊢
              by_cases h5 : 0xE1 ≤ b ∧ b ≤ 0xEF
              · rw [if_pos h5] at hx ⊢; exact ih _ _ _ hx
              · rw [if_neg h5] at hx ⊢
                by_cases h6 : b = 0xF0
                · rw [if_pos h6] at hx ⊢; exact ih _ _ _ hx
                · rw [if_neg h6] at hx ⊢
                  by_cases h7 : b = 0xF4
                  · rw [if_pos h7] at hx ⊢; exact ih _ _ _ hx
                  · rw [if_neg h7] at hx ⊢
                    by_cases h8 : 0xF1 ≤ b ∧ b ≤ 0xF3
                    · rw [if_pos h8] at hx ⊢; exact ih _ _ _ hx
                    · rw [if_neg h8] at hx; cases hx
    | succ q =>
      simp only [utf8Run] at hx ⊢
      by_cases h : lo ≤ b ∧ b ≤ hi
      · rw [if_pos h] at hx ⊢; exact ih _ _ _ hx
      · rw [if_neg h] at hx; cases hx

theorem utf8Run_flatMap (b : Nat) (hb : b ≤ 127) (rw : List Nat)
    (hrw : utf8Run rw 0 0 0 = true) :
    ∀ xs p lo hi, (p ≠ 0 → 0x80 ≤ lo) → utf8Run xs p lo hi = true →
      utf8Run (xs.flatMap (fun c => if c = b then rw else [c])) p lo hi = true := by
  intro xs
  induction xs with
  | nil =>
    intro p lo hi _ hx
    simpa using hx
  | cons c xs ih =>
    intro p lo hi hp hx
    simp only [List.flatMap_cons]
    cases p with
    | zero =>
      simp only [utf8Run] at hx
      by_cases h1 : c ≤ 0x7F
      · rw [if_pos h1] at hx
        by_cases hcb : c = b
        · rw [if_pos hcb]
          rw [utf8Run_state0 _ lo hi 0 0]
          exact utf8Run_append _ (ih 0 0 0 (by simp) hx) rw 0 0 0 hrw
        · rw [if_neg hcb, List.singleton_append]
          simp only [utf8Run]
          rw [if_pos h1]
          exact ih 0 0 0 (by simp) hx
      · rw [if_neg h1] at hx
        by_cases h2 : 0xC2 ≤ c ∧ c ≤ 0xDF
        · rw [if_pos h2] at hx
          have hcb : ¬c = b := by obtain ⟨ha, _⟩ := h2; omega
          rw [if_neg hcb, List.singleton_append]
          simp only [utf8Run]
          rw [if_neg h1, if_pos h2]
          exact ih 1 0x80 0xBF (fun _ => by norm_num) hx
        · rw [if_neg h2] at hx
          by_cases h3 : c = 0xE0
          · rw [if_pos h3] at hx
            have hcb : ¬c = b := by omega
            rw [if_neg hcb, List.singleton_append]
            simp only [utf8Run]
            rw [if_neg h1, if_neg h2, if_pos h3]
            exact ih 2 0xA0 0xBF (fun _ => by norm_num) hx
          · rw [if_neg h3] at hx
            by_cases h4 : c = 0xED
            · rw [if_pos h4] at hx
              have hcb : ¬c = b := by omega
              rw [if_neg hcb, List.singleton_append]
              simp only [utf8Run]
              rw [if_neg h1, if_neg h2, if_neg h3, if_pos h4]
              exact ih 2 0x80 0x9F (fun _ => by norm_num) hx
            · rw [if_neg h4] at hx
              by_cases h5 : 0xE1 ≤ c ∧ c ≤ 0xEF
              · rw [if_pos h5] at hx
                have hcb : ¬c = b := by obtain ⟨ha, _⟩ := h5; omega
                rw [if_neg hcb, List.singleton_append]
                simp only [utf8Run]
                rw [if_neg h1, if_neg h2, if_neg h3, if_neg h4, if_pos h5]
                exact ih 2 0x80 0xBF (fun _ => by norm_num) hx
              · rw [if_neg h5] at hx
                by_cases h6 : c = 0xF0
                · rw [if_pos h6] at hx
                  have hcb : ¬c = b := by omega
                  rw [if_neg hcb, List.singleton_append]
                  simp only [utf8Run]
                  rw [if_neg h1, if_neg h2, if_neg h3, if_neg h4, if_neg h5, if_pos h6]
                  exact ih 3 0x90 0xBF (fun _ => by norm_num) hx
                · rw [if_neg h6] at hx
                  by_cases h7 : c = 0xF4
                  · rw [if_pos h7] at hx
                    have hcb : ¬c = b := by omega
                    rw [if_neg hcb, List.singleton_append]
                    simp only [utf8Run]
                    rw [if_neg h1, if_neg h2, if_neg h3, if_neg h4, if_neg h5, if_neg h6,
                      if_pos h7]
                    exact ih 3 0x80 0x8F (fun _ => by norm_num) hx
                  · rw [if_neg h7] at hx
                    by_cases h8 : 0xF1 ≤ c ∧ c ≤ 0xF3
                    · rw [if_pos h8] at hx
                      have hcb : ¬c = b := by obtain ⟨ha, _⟩ := h8; omega
                      rw [if_neg hcb, List.singleton_append]
                      simp only [utf8Run]
                      rw [if_neg h1, if_neg h2, if_neg h3, if_neg h4, if_neg h5, if_neg h6,
                        if_neg h7, if_pos h8]
                      exact ih 3 0x80 0xBF (fun _ => by norm_num) hx
                    · rw [if_neg h8] at hx; cases hx
    | succ q =>
      simp only [utf8Run] at hx
      by_cases h : lo ≤ c ∧ c ≤ hi
      · rw [if_pos h] at hx
        have hlo : 0x80 ≤ lo := hp (by omega)
        have hcb : ¬c = b := by obtain ⟨ha, _⟩ := h; omega
        rw [if_neg hcb, List.singleton_append]
        simp only [utf8Run]
        rw [if_pos h]
        exact ih q 0x80 0xBF (fun _ => by norm_num) hx
      · rw [if_neg h] at hx; cases hx

/-- Claim C10: byte-pattern replace preserves UTF-8 validity: for every
valid-UTF-8 input text, every pattern byte at most 127 (the `AsciiByte`
construction invariant, taken as a hypothesis) and every valid-UTF-8
replacement, the output of `str_replace` is valid UTF-8 — an ASCII byte is
never a continuation byte, so every replacement site covers exactly one
whole character. -/
theorem str_replace_ascii_utf8 (inp rw : List Nat) (b : Nat) (hb : b ≤ 127)
    (hinp : utf8Valid inp = true) (hrw : utf8Valid rw = true) :
    utf8Valid (str_replace inp (.asciiByte b) rw) = true := by
  have hfm : str_replace inp (.asciiByte b) rw
      = inp.flatMap (fun c => if c = b then rw else [c]) := by
    simpa [str_replace] using foldl_write_flatMap b rw inp []
  rw [utf8Valid, hfm]
  exact utf8Run_flatMap b hb rw hrw inp 0 0 0 (fun h => absurd rfl h) hinp

/-- Witness for C10: replacing the ASCII byte 97 with the valid two-byte
sequence 195, 169 inside the valid text 228, 184, 138, 97 (a three-byte
character followed by one ASCII character) yields valid UTF-8. -/
theorem str_replace_ascii_utf8_witness :
    (97 : Nat) ≤ 127 ∧ utf8Valid [228, 184, 138, 97] = true ∧
    utf8Valid [195, 169] = true ∧
    utf8Valid (str_replace [228, 184, 138, 97] (.asciiByte 97) [195, 169]) = true :=
  ⟨by decide, by decide, by decide,
    str_replace_ascii_utf8 [228, 184, 138, 97] [195, 169] 97 (by decide) (by decide)
      (by decide)⟩

/-! ## Index, get and splice claims -/

/-- Claim C4: for every text and index spec, whenever `str_index` succeeds
(the resolved span is in bounds and on char boundaries), `str_get` returns
`some` of the identical substring; whenever `str_index` fails because of a
range or boundary violation, `str_get` returns `none` instead of
failing. -/
theorem str_index_get_agree (text : List Nat) (spec : IndexSpec) :
    (∀ out, str_index text spec = .ok out → str_get text spec = some out) ∧
    (str_index text spec = .error .invalidIndex ↔ str_get text spec = none) := by
  by_cases h : index_valid text spec = true
  · constructor
    · intro out ho
      simp only [str_index, if_pos h] at ho
      simp only [str_get, if_pos h]
      injection ho with ho
      rw [ho]
    · simp [str_index, str_get, if_pos h]
  · constructor
    · intro out ho
      simp only [str_index, if_neg h] at ho
      cases ho
    · simp [str_index, str_get, if_neg h]

/-- Witness for C4: indexing the full span of a one-byte text succeeds and
`str_get` agrees. -/
theorem str_index_get_agree_witness :
    str_index [97] .rangeFull = .ok [97] ∧ str_get [97] .rangeFull = some [97] :=
  ⟨by decide, (str_index_get_agree [97] .rangeFull).1 [97] (by decide)⟩

/-- Claim C5: splice round-trip law — if `str_splice text spec ins` returns
`{output, removed}`, then splicing `removed` back into `output` at the span
that starts at the original resolved start and has length `ins.length`
yields exactly the original text. -/
theorem str_splice_roundtrip (text ins out rem : List Nat) (spec : IndexSpec)
    (h : str_splice text spec ins = .ok ⟨out, rem⟩) :
    out.take (resolveIndexSpec text spec).1 ++ rem ++
      out.drop ((resolveIndexSpec text spec).1 + ins.length) = text := by
  by_cases hv : index_valid text spec = true
  · simp only [str_splice, if_pos hv] at h
    injection h with h
    rw [SplicedStr.mk.injEq] at h
    obtain ⟨ho, hr⟩ := h
    have hval := hv
    simp only [index_valid, Bool.and_eq_true, decide_eq_true_eq] at hval
    obtain ⟨⟨⟨hse, hel⟩, _⟩, _⟩ := hval
    subst ho
    subst hr
    simp only [decompose]
    have hlen : (text.take (resolveIndexSpec text spec).1).length
        = (resolveIndexSpec text spec).1 := by
      rw [List.length_take]
      omega
    have hlen2 : (text.take (resolveIndexSpec text spec).1 ++ ins).length
        = (resolveIndexSpec text spec).1 + ins.length := by
      rw [List.length_append, hlen]
    have htake : (text.take (resolveIndexSpec text spec).1 ++ ins ++
          text.drop (resolveIndexSpec text spec).2).take (resolveIndexSpec text spec).1
        = text.take (resolveIndexSpec text spec).1 := by
      rw [List.append_assoc]
      exact List.take_left' hlen
    have hdrop : (text.take (resolveIndexSpec text spec).1 ++ ins ++
          text.drop (resolveIndexSpec text spec).2).drop
            ((resolveIndexSpec text spec).1 + ins.length)
        = text.drop (resolveIndexSpec text spec).2 :=
      List.drop_left' hlen2
    rw [htake, hdrop]
    have key : (text.drop (resolveIndexSpec text spec).1).take
          ((resolveIndexSpec text spec).2 - (resolveIndexSpec text spec).1) ++
        text.drop (resolveIndexSpec text spec).2
        = text.drop (resolveIndexSpec text spec).1 := by
      conv_rhs => rw [← List.take_append_drop
        ((resolveIndexSpec text spec).2 - (resolveIndexSpec text spec).1)
        (text.drop (resolveIndexSpec text spec).1)]
      congr 1
      rw [List.drop_drop]
      congr 1
      omega
    rw [List.append_assoc, key, List.take_append_drop]
  · simp only [str_splice, if_neg hv] at h
    cases h

/-- Witness for C5: splicing bytes 100, 101 over the span 1 to 2 of the
text 97, 98, 99 and splicing the removed byte back reproduces the text. -/
theorem str_splice_roundtrip_witness :
    str_splice [97, 98, 99] (.range 1 2) [100, 101] = .ok ⟨[97, 100, 101, 99], [98]⟩ ∧
    ([97, 100, 101, 99] : List Nat).take (resolveIndexSpec [97, 98, 99] (.range 1 2)).1
        ++ [98] ++
      ([97, 100, 101, 99] : List Nat).drop
        ((resolveIndexSpec [97, 98, 99] (.range 1 2)).1 + ([100, 101] : List Nat).length)
      = [97, 98, 99] :=
  ⟨by decide,
    str_splice_roundtrip [97, 98, 99] [100, 101] [97, 100, 101, 99] [98] (.range 1 2)
      (by decide)⟩

/-! ## Parser claims -/

/-- Counterexample to claim C3: parsing the template consisting of a
doubled opening brace, the word literal, and a doubled closing brace does
not return the single literal component containing brace-literal-brace;
the doubled-opening-brace escape is emitted as a separate literal
component. -/
theorem parse_doubled_brace_cex :
    parse_format_str ['{', '{', 'l', 'i', 't', 'e', 'r', 'a', 'l', '}', '}'] ≠
      Except.ok ⟨[FmtStrComponent.str ['{', 'l', 'i', 't', 'e', 'r', 'a', 'l', '}']]⟩ := by
  decide

/-- Claim C3 (amended): parsing the doubled-brace template returns a
FormatStr of exactly two literal components — the single opening brace from
the doubled-brace escape, and the unescaped remaining text — whose
concatenation is the expected unescaped literal. -/
theorem parse_doubled_brace :
    parse_format_str ['{', '{', 'l', 'i', 't', 'e', 'r', 'a', 'l', '}', '}'] =
      Except.ok ⟨[FmtStrComponent.str ['{'],
        FmtStrComponent.str ['l', 'i', 't', 'e', 'r', 'a', 'l', '}']]⟩ := by
  decide

/-- Counterexample to claim C6: the selector consisting of the twenty
decimal digits of 2 to the 64th power is non-empty and all-digit, yet the
parser reports a fatal not-a-number error because the value overflows the
platform size type, instead of returning a positional Arg component. -/
theorem parse_which_arg_overflow_cex :
    (['1', '8', '4', '4', '6', '7', '4', '4', '0', '7', '3', '7', '0', '9', '5',
        '5', '1', '6', '1', '6'] : List Char) ≠ [] ∧
    (['1', '8', '4', '4', '6', '7', '4', '4', '0', '7', '3', '7', '0', '9', '5',
        '5', '1', '6', '1', '6'] : List Char).all isAsciiDigit = true ∧
    parse_which_arg
        ['1', '8', '4', '4', '6', '7', '4', '4', '0', '7', '3', '7', '0', '9', '5',
          '5', '1', '6', '1', '6'] 0 =
      .error ⟨0, .notANumber
        ['1', '8', '4', '4', '6', '7', '4', '4', '0', '7', '3', '7', '0', '9', '5',
          '5', '1', '6', '1', '6']⟩ := by
  decide

/-- Claim C6 (amended): for every non-empty selector consisting entirely of
ASCII digits, the parser returns an Arg selector with explicit positional
index equal to the decimal value of the digits whenever that value fits in
the platform size type; when the value exceeds the size type's maximum the
parser instead reports a fatal not-a-number error. -/
theorem parse_which_arg_digits (input : List Char) (starts_at : Nat)
    (hne : input ≠ []) (hdig : input.all isAsciiDigit = true) :
    (digitsToNat input ≤ usizeMax →
      parse_which_arg input starts_at = .ok (.positional (some (digitsToNat input)))) ∧
    (usizeMax < digitsToNat input →
      parse_which_arg input starts_at = .error ⟨starts_at, .notANumber input⟩) := by
  cases input with
  | nil => exact absurd rfl hne
  | cons c rest =>
    have hc : isAsciiDigit c = true := by
      rw [List.all_cons, Bool.and_eq_true] at hdig
      exact hdig.1
    have hcp : ¬c = '+' := by
      intro he
      subst he
      rw [isAsciiDigit] at hc
      simp at hc
    have hred : parse_which_arg (c :: rest) starts_at =
        (if isAsciiDigit c = true then
          match parseUsize (c :: rest) with
          | some number => .ok (.positional (some number))
          | none => .error ⟨starts_at, .notANumber (c :: rest)⟩
        else parse_ident (c :: rest) starts_at) := rfl
    have hred2 : parseUsize (c :: rest)
        = parseUsizeDigits (if c = '+' then rest else c :: rest) := rfl
    rw [hred, if_pos hc, hred2, if_neg hcp]
    unfold parseUsizeDigits
    rw [if_neg (by simp : ¬((c :: rest).isEmpty = true)), if_pos hdig]
    constructor
    · intro hle
      rw [if_pos hle]
    · intro hgt
      rw [if_neg (by omega : ¬(digitsToNat (c :: rest) ≤ usizeMax))]

/-- Witness for the amended C6: the two-digit selector 4-2 parses to the
explicit positional index it denotes. -/
theorem parse_which_arg_digits_witness :
    (['4', '2'] : List Char) ≠ [] ∧ (['4', '2'] : List Char).all isAsciiDigit = true ∧
    digitsToNat ['4', '2'] ≤ usizeMax ∧
    parse_which_arg ['4', '2'] 0 = .ok (.positional (some (digitsToNat ['4', '2']))) :=
  ⟨by decide, by decide, by decide,
    (parse_which_arg_digits ['4', '2'] 0 (by decide) (by decide)).1 (by decide)⟩

/-- Claim C9: the formatting spec of a placeholder — the part after the
first colon, or empty when there is no colon, as `parse_fmt_arg` splits it —
parses to Display exactly when it is empty, to Debug exactly when it is a
single question mark, and any other spec string is a fatal parse error of
kind unknown-formatting reporting the unrecognized spec text and its
offset. -/
theorem parse_formatting_spec (input : List Char) (starts_at ambient : Nat) :
    (parse_formatting input starts_at = .ok .display ↔ input = []) ∧
    (parse_formatting input starts_at = .ok .debug ↔ input = ['?']) ∧
    (input ≠ [] → input ≠ ['?'] →
      parse_formatting input starts_at = .error ⟨starts_at, .unknownFormatting input⟩) ∧
    parse_fmt_arg (':' :: input) ambient =
      (parse_formatting input (ambient + 1)).map
        (fun f => ⟨.positional none, f⟩) := by
  have h4 : parse_fmt_arg (':' :: input) ambient =
      (parse_formatting input (ambient + 1)).map
        (fun f => ⟨WhichArg.positional none, f⟩) := by
    have hfind : charFindIdx (':' :: input) ':' = some 0 := by
      rw [charFindIdx, if_pos rfl]
    have hred : parse_fmt_arg (':' :: input) ambient =
        (match parse_which_arg ((':' :: input).take
            ((charFindIdx (':' :: input) ':').getD (':' :: input).length)) ambient with
        | .error e => .error e
        | .ok w =>
          match parse_formatting
              (match charFindIdx (':' :: input) ':' with
                | none => []
                | some x => (':' :: input).drop (x + 1))
              (match charFindIdx (':' :: input) ':' with
                | none => (':' :: input).length
                | some x => ambient + x + 1) with
          | .error e => .error e
          | .ok f => .ok ⟨w, f⟩) := rfl
    rw [hred, hfind]
    simp only [Option.getD_some, List.take_zero, List.drop_succ_cons, List.drop_zero]
    have hw : parse_which_arg [] ambient = .ok (.positional none) := rfl
    rw [hw]
    cases parse_formatting input (ambient + 1) <;> rfl
  refine ⟨?_, ?_, ?_, h4⟩
  · unfold parse_formatting
    by_cases h1 : input = []
    · simp [h1]
    · rw [if_neg h1]
      by_cases h2 : input = ['?']
      · rw [if_pos h2]
        simp [h1]
      · rw [if_neg h2]
        simp [h1]
  · unfold parse_formatting
    by_cases h1 : input = []
    · subst h1
      simp
    · rw [if_neg h1]
      by_cases h2 : input = ['?']
      · rw [if_pos h2]
        simp [h2]
      · rw [if_neg h2]
        simp [h2]
  · intro h1 h2
    unfold parse_formatting
    rw [if_neg h1, if_neg h2]

/-- Witness for C9: the spec string consisting of the letter x at offset 2
is rejected with an unknown-formatting error carrying that text and
offset. -/
theorem parse_formatting_spec_witness :
    (['x'] : List Char) ≠ [] ∧ (['x'] : List Char) ≠ ['?'] ∧
    parse_formatting ['x'] 2 = .error ⟨2, .unknownFormatting ['x']⟩ :=
  ⟨by decide, by decide,
    (parse_formatting_spec ['x'] 2 0).2.2.1 (by decide) (by decide)⟩
